import Mathlib

/-!
# Verification of the gomodifytags selection & tag-rewrite engine

Shallow embedding of the program's core: the tag mini-language engine
(`modifytags` package), the rewrite walk, and the CLI-side selection
resolution and JSON line reconstruction (`main.go`).

Go strings are modeled as lists of characters (`Str`).  Machine integers
are modeled by `Int`/`Nat` (the quantities involved — line numbers, byte
offsets — are far below overflow in every claim considered).  Fallible Go
code returns `Option` (`none` = error) or `GoResult` (which distinguishes
a returned error from a runtime panic).
-/

/-- Go strings, modeled as lists of characters. -/
abbrev Str := List Char

/-- The backquote character delimiting Go raw string literals. -/
def btick : Char := Char.ofNat 96

/-- Result of a Go function that can either return a value, return an
error, or panic at runtime. -/
inductive GoResult (α : Type) where
  | ok (val : α)
  | err (msg : Str)
  | panicked
deriving DecidableEq

/-- `true` iff the result is a returned (non-panic) error. -/
def GoResult.isErr {α : Type} : GoResult α → Bool
  | .err _ => true
  | _ => false

/-- Digit-string value, used by the model of `strconv.Atoi`. -/
def digitsVal (ds : Str) : Nat :=
  ds.foldl (fun acc c => acc * 10 + (c.toNat - 48)) 0

/-- Model of Go `strconv.Atoi`: an optional single sign followed by at
least one digit; anything else is an error (`none`). -/
def goAtoi : Str → Option Int
  | [] => none
  | '+' :: ds => if ds ≠ [] ∧ ds.all (·.isDigit) then some (digitsVal ds) else none
  | '-' :: ds => if ds ≠ [] ∧ ds.all (·.isDigit) then some (-(digitsVal ds : Int)) else none
  | ds => if ds.all (·.isDigit) then some (digitsVal ds) else none

/-- main.go `split`: scan the line directive from the end for the last
colon and `Atoi` the suffix after it; error (`none`) when there is no
colon or the suffix is not a number. -/
def split (line : Str) : Option Int :=
  if ':' ∈ line then goAtoi ((line.reverse.takeWhile (fun c => c ≠ ':')).reverse)
  else none

/-- The `//line` marker that `parseLines` recognizes via `strings.HasPrefix`. -/
def linePrefix : Str := "//line".toList

/-- Loop body of main.go `parseLines`: a plain line is appended to the
buffer; a `//line` directive with number `n` pads the buffer with empty
lines up to length `n-1` and truncates it to its first `n-1` entries.
A directive whose number parses to `n < 1` makes the Go code slice with
a negative index, a runtime panic, modeled as `none` (as is a directive
whose number does not parse, which Go returns as an error). -/
def parseLinesLoop : List Str → List Str → Option (List Str)
  | [], lines => some lines
  | txt :: rest, lines =>
    if linePrefix.isPrefixOf txt then
      match split txt with
      | none => none
      | some n =>
        if n < 1 then none
        else
          parseLinesLoop rest
            ((lines ++ List.replicate (n.toNat - 1 - lines.length) []).take (n.toNat - 1))
    else parseLinesLoop rest (lines ++ [txt])

/-- main.go `parseLines`: reconstruct the original line array of a
printed file from plain lines and `//line` directives. -/
def parseLines (input : List Str) : Option (List Str) := parseLinesLoop input []

/-- A printed line as the specification describes it: either a plain
text line or a `//line file:n` directive carrying line number `n`. -/
inductive PrintedLine where
  | plain (s : Str)
  | directive (n : Nat)

/-- One buffer step of the reconstruction, in the specification's words:
append a plain line; for a directive with number `n`, pad the buffer
with empty lines up to length `n-1` if it is shorter, then truncate it
to exactly its first `n-1` entries. -/
def specStep (buf : List Str) : PrintedLine → List Str
  | .plain s => buf ++ [s]
  | .directive n => (buf ++ List.replicate (n - 1 - buf.length) []).take (n - 1)

/-- The specification's reconstruction: fold `specStep` over the printed
lines starting from an empty buffer; the result is the buffer after the
last line. -/
def specBuild (ls : List PrintedLine) : List Str := ls.foldl specStep []

/-- Relates a raw printed text line to its classification: a plain line
does not start with `//line`; a directive starts with `//line` and its
last-colon suffix parses to the (positive) line number `n`. -/
def classifies (txt : Str) : PrintedLine → Prop
  | .plain s => s = txt ∧ linePrefix.isPrefixOf txt = false
  | .directive n => linePrefix.isPrefixOf txt = true ∧ split txt = some (n : Int) ∧ 1 ≤ n

/-! ## The tag mini-language (model of the external structtag library)

The structtag dependency is not part of this repository; its operations
are modeled here from their documented behavior (ordered tag sequence,
first-match lookup, replace-all set, reflect-style parsing of
`key:"name,opt,..."` groups). -/

/-- One tag of a field's tag set. -/
structure Tag where
  key : Str
  name : Str
  options : List Str
deriving DecidableEq

/-- structtag Tags.Get: the first tag with the given key (`none` models
the tag-not-exist error). -/
def tagsGet (key : Str) (ts : List Tag) : Option Tag :=
  ts.find? (fun t => t.key == key)

/-- structtag Tags.Set: an empty key is an error; otherwise every tag
whose key matches is replaced, and the tag is appended when no key
matched. -/
def tagsSet (tag : Tag) (ts : List Tag) : Option (List Tag) :=
  if tag.key = [] then none
  else if ts.any (fun tg => tg.key == tag.key) then
    some (ts.map (fun tg => if tg.key == tag.key then tag else tg))
  else some (ts ++ [tag])

/-- structtag Tags.Delete: drop every tag whose key is listed. -/
def tagsDelete (keys : List Str) (ts : List Tag) : List Tag :=
  ts.filter (fun t => !keys.contains t.key)

/-- structtag Tags.Keys. -/
def tagsKeys (ts : List Tag) : List Str := ts.map (·.key)

/-- structtag Tags.DeleteOptions: delete the listed options from every
tag with the given key. -/
def tagsDeleteOptions (key : Str) (opts : List Str) (ts : List Tag) : List Tag :=
  ts.map (fun t =>
    if t.key == key then { t with options := t.options.filter (fun o => !opts.contains o) }
    else t)

/-- structtag Tags.AddOptions: append each not-yet-present option to the
tag with the given key; a missing key is created with an empty name. -/
def tagsAddOptions (key : Str) (opts : List Str) (ts : List Tag) : List Tag :=
  if ts.any (fun t => t.key == key) then
    ts.map (fun t =>
      if t.key == key then
        { t with options := opts.foldl (fun os o => if os.contains o then os else os ++ [o]) t.options }
      else t)
  else ts ++ [{ key := key, name := [], options := opts }]

/-- Go strings.Join with a one-character separator. -/
def joinStrs (sep : Char) : List Str → Str
  | [] => []
  | [x] => x
  | x :: xs => x ++ sep :: joinStrs sep xs

/-- structtag Tag.Value(): the name and the options joined with commas. -/
def tagValue (t : Tag) : Str := joinStrs ',' (t.name :: t.options)

/-- strconv.Quote-style encoding of one character of a double-quoted
value: double quotes and backslashes are escaped, every other character
is kept verbatim.  (Go additionally uses special escape forms for
control characters; using the plain form changes only the rendering of
such characters and no property at issue.) -/
def encodeChar (c : Char) : Str :=
  if c = '"' ∨ c = '\\' then ['\\', c] else [c]

/-- Encoding of a whole value. -/
def encodeStr : Str → Str
  | [] => []
  | c :: r => encodeChar c ++ encodeStr r

/-- strconv.Quote: the encoded value wrapped in double quotes. -/
def goQuote (v : Str) : Str := '"' :: encodeStr v ++ ['"']

/-- structtag Tag.String(): `key:"value"`. -/
def tagString (t : Tag) : Str := t.key ++ ':' :: goQuote (tagValue t)

/-- structtag Tags.String(): the tag strings joined with single spaces. -/
def tagsString (ts : List Tag) : Str := joinStrs ' ' (ts.map tagString)

/-- Unquoting of a double-quoted value's contents: a backslash escapes
the following character, which is taken verbatim. -/
def decodeStr : Str → Str
  | [] => []
  | c :: r =>
    if c = '\\' then
      match r with
      | [] => [c]
      | d :: r2 => d :: decodeStr r2
    else c :: decodeStr r

/-- The quoted-value scanner of structtag.Parse: consume up to the
closing double quote, skipping the character after each backslash;
returns the raw contents and the remainder after the closing quote. -/
def scanQuoted : Str → Option (Str × Str)
  | [] => none
  | c :: r =>
    if c = '"' then some ([], r)
    else if c = '\\' then
      match r with
      | [] => none
      | d :: r2 => (scanQuoted r2).map (fun p => (c :: d :: p.1, p.2))
    else (scanQuoted r).map (fun p => (c :: p.1, p.2))

/-- Characters structtag.Parse accepts inside a key: above the space
character, and not a colon, double quote, or DEL. -/
def keyChar (c : Char) : Bool :=
  decide (32 < c.toNat) && (c != ':') && (c != '"') && (c.toNat != 127)

/-- Fuel-indexed loop of structtag.Parse: skip spaces, scan a non-empty
key, require `:"`, scan the quoted value, unquote it, and split it at
every comma into the name and the options.  The fuel (one more than the
input length) always suffices because every round consumes at least one
character. -/
def parseTagsF : Nat → Str → Option (List Tag)
  | 0, _ => none
  | fuel + 1, s =>
    let s' := s.dropWhile (fun c => c == ' ')
    if s' = [] then some []
    else
      let key := s'.takeWhile keyChar
      let rest := s'.dropWhile keyChar
      if key = [] then none
      else
        match rest with
        | ':' :: '"' :: r2 =>
          match scanQuoted r2 with
          | none => none
          | some (raw, rem) =>
            match (decodeStr raw).splitOn ',' with
            | [] => none
            | n :: os =>
              (parseTagsF fuel rem).map
                (fun ts => { key := key, name := n, options := os } :: ts)
        | _ => none

/-- structtag.Parse. -/
def goParse (s : Str) : Option (List Tag) := parseTagsF (s.length + 1) s

/-- The shape a tag takes after a serialize/parse round trip: the value
is re-split at every comma, the part before the first comma becoming
the name and the rest the options. -/
def canonTag (t : Tag) : Tag :=
  match (tagValue t).splitOn ',' with
  | [] => { key := t.key, name := [], options := [] }
  | n :: os => { key := t.key, name := n, options := os }

/-- Byte-wise lexicographic `<` on Go strings. -/
def strLt : Str → Str → Bool
  | [], [] => false
  | [], _ :: _ => true
  | _ :: _, [] => false
  | a :: as, b :: bs => if a = b then strLt as bs else decide (a.toNat < b.toNat)

/-- Insertion step of the key sort. -/
def insertTag (t : Tag) : List Tag → List Tag
  | [] => [t]
  | u :: us => if strLt u.key t.key then u :: insertTag t us else t :: u :: us

/-- sort.Sort with structtag's ascending-by-key Less, modeled as an
insertion sort. -/
def sortTags : List Tag → List Tag
  | [] => []
  | t :: ts => insertTag t (sortTags ts)

/-! ## Field-name transforms (model of the external camelcase library) -/

/-- Character classes of camelcase.Split (ASCII reading of the unicode
classes). -/
def charClass (c : Char) : Nat :=
  if c.isLower then 1 else if c.isUpper then 2 else if c.isDigit then 3 else 4

/-- Maximal runs of one character class. -/
def classRuns (s : Str) : List Str :=
  s.splitBy (fun a b => charClass a == charClass b)

/-- Whether a run starts with an upper-case character. -/
def headUpper : Str → Bool
  | [] => false
  | c :: _ => c.isUpper

/-- Whether a run starts with a lower-case character. -/
def headLower : Str → Bool
  | [] => false
  | c :: _ => c.isLower

/-- Acronym-boundary fix of camelcase.Split (fuel-indexed so that it
reduces by computation; the run-list length is always enough fuel):
when an upper-case run is followed by a lower-case run, the last
character of the former moves to the front of the latter. -/
def fixRunsF : Nat → List Str → List Str
  | 0, l => l
  | fuel + 1, l =>
    match l with
    | r1 :: r2 :: rest =>
      if headUpper r1 && headLower r2 then
        r1.dropLast :: fixRunsF fuel ((r1.getLastD 'A' :: r2) :: rest)
      else r1 :: fixRunsF fuel (r2 :: rest)
    | _ => l

/-- Acronym-boundary fix of camelcase.Split. -/
def fixRuns (l : List Str) : List Str := fixRunsF l.length l

/-- camelcase.Split: class runs, acronym fix, empty runs dropped. -/
def camelSplit (s : Str) : List Str :=
  (fixRuns (classRuns s)).filter (fun r => !r.isEmpty)

/-- Transform selectors of the modifytags package. -/
inductive Transform where
  | snake | camel | lisp | pascal | title | keep
deriving DecidableEq

/-- strings.ToLower (ASCII). -/
def strToLower (s : Str) : Str := s.map Char.toLower

/-- strings.Title applied to a single same-class run: upper-case its
first character. -/
def titleWord : Str → Str
  | [] => []
  | c :: r => c.toUpper :: r

/-- strings.Trim(s, "_"). -/
def trimUnderscore (s : Str) : Str :=
  ((s.dropWhile (fun c => c == '_')).reverse.dropWhile (fun c => c == '_')).reverse

/-- Concatenation (strings.Join with the empty separator). -/
def concatStrs : List Str → Str
  | [] => []
  | x :: xs => x ++ concatStrs xs

/-- The transform switch of Modification.addTags: how the field name
becomes the base tag name.  Snake case is the default branch and trims
underscores from each word, dropping words that become empty.  (On an
empty word list the camel branch of the Go code would panic indexing
`titled[0]`; it is unreachable from the rewrite walk, which never passes
an empty field name.) -/
def transformName (tr : Transform) (fieldName : Str) : Str :=
  match tr with
  | .lisp => joinStrs '-' ((camelSplit fieldName).map strToLower)
  | .camel =>
    match (camelSplit fieldName).map titleWord with
    | [] => []
    | t :: ts => concatStrs (strToLower t :: ts)
  | .pascal => concatStrs ((camelSplit fieldName).map titleWord)
  | .title => joinStrs ' ' ((camelSplit fieldName).map titleWord)
  | .keep => fieldName
  | .snake =>
    joinStrs '_'
      ((((camelSplit fieldName).map trimUnderscore).filter (fun s => !s.isEmpty)).map strToLower)

/-- strings.ReplaceAll, fuel-indexed so that it reduces by computation:
replace every non-overlapping occurrence of `pat` (leftmost first) by
`rep`.  (`pat` is never empty at the call sites modeled here.) -/
def replaceAllF (pat rep : Str) : Nat → Str → Str
  | _, [] => []
  | 0, s => s
  | fuel + 1, c :: rest =>
    if pat ≠ [] ∧ pat.isPrefixOf (c :: rest) then
      rep ++ replaceAllF pat rep fuel (rest.drop (pat.length - 1))
    else c :: replaceAllF pat rep fuel rest

/-- strings.ReplaceAll proper (each round consumes at least one
character, so the input length is always enough fuel). -/
def replaceAll (pat rep : Str) (s : Str) : Str := replaceAllF pat rep s.length s

/-- The "{field}" placeholder. -/
def fieldPat : Str := "{field}".toList

/-- The legacy "$field" placeholder. -/
def dollarPat : Str := "$field".toList

/-- The value-format block of Modification.addTags: substitute the
computed name for the "{field}" placeholder; when that substitution
leaves the template unchanged, substitute the legacy "$field"
placeholder instead. -/
def applyValueFormat (vf name : Str) : Str :=
  if vf = [] then name
  else
    let name' := replaceAll fieldPat name vf
    if name' = vf then replaceAll dollarPat name vf else name'

/-! ## The Modification recipe and processField pipeline (modifytags package) -/

/-- The Modification recipe.  Go's per-key option maps are modeled as
association lists in some iteration order. -/
structure Modification where
  Add : List Str
  AddOptions : List (Str × List Str)
  Remove : List Str
  RemoveOptions : List (Str × List Str)
  Overwrite : Bool
  SkipUnexportedFields : Bool
  Transform : Transform
  Sort' : Bool
  ValueFormat : Str
  Clear : Bool
  ClearOptions : Bool
deriving DecidableEq

/-- Modification.removeTags. -/
def removeTags (mod : Modification) (tags : List Tag) : List Tag :=
  if mod.Remove = [] then tags else tagsDelete mod.Remove tags

/-- Modification.removeTagOptions: DeleteOptions per (key, option). -/
def removeTagOptions (mod : Modification) (tags : List Tag) : List Tag :=
  if mod.RemoveOptions = [] then tags
  else
    mod.RemoveOptions.foldl
      (fun ts kv => kv.2.foldl (fun ts' o => tagsDeleteOptions kv.1 [o] ts') ts) tags

/-- Modification.clearTags: delete every key. -/
def clearTags (mod : Modification) (tags : List Tag) : List Tag :=
  if !mod.Clear then tags else tagsDelete (tagsKeys tags) tags

/-- Modification.clearOptions: drop the options of every tag. -/
def clearOptions (mod : Modification) (tags : List Tag) : List Tag :=
  if !mod.ClearOptions then tags else tags.map (fun t => { t with options := [] })

/-- Modification.addTagOptions: AddOptions per key. -/
def addTagOptions (mod : Modification) (tags : List Tag) : List Tag :=
  if mod.AddOptions = [] then tags
  else mod.AddOptions.foldl (fun ts kv => tagsAddOptions kv.1 kv.2 ts) tags

/-- strings.SplitN(s, sep, 2): at most two pieces, around the first
separator. -/
def splitN2 (sep : Char) (s : Str) : List Str :=
  if sep ∈ s then [s.takeWhile (fun c => c != sep), (s.dropWhile (fun c => c != sep)).tail]
  else [s]

/-- The loop of Modification.addTags over the add entries.  The `name`
argument models the Go local variable of the same name: an entry of the
form `key:literal` overwrites it, and the overwritten value is what the
following iterations see. -/
def addTagsLoop (ow : Bool) : List Str → Str → List Tag → Option (List Tag)
  | [], _, tags => some tags
  | entry :: restEntries, name, tags =>
    let p := match splitN2 ':' entry with
             | [k, lit] => (k, lit)
             | _ => (entry, name)
    let tag := match tagsGet p.1 tags with
               | none => { key := p.1, name := p.2, options := [] : Tag }
               | some t => if ow then { t with name := p.2 } else t
    match tagsSet tag tags with
    | none => none
    | some tags' => addTagsLoop ow restEntries p.2 tags'

/-- Modification.addTags. -/
def addTags (mod : Modification) (fieldName : Str) (tags : List Tag) : Option (List Tag) :=
  if mod.Add = [] then some tags
  else
    addTagsLoop mod.Overwrite mod.Add
      (applyValueFormat mod.ValueFormat (transformName mod.Transform fieldName)) tags

/-- strconv.Unquote restricted to the literal shapes a field tag
carries: a backquoted raw string (whose contents may not contain a
backquote) or a double-quoted string (decoded with `decodeStr`). -/
def goUnquoteLit (s : Str) : Option Str :=
  match s with
  | [] => none
  | c :: rest =>
    if c = btick then
      if rest ≠ [] ∧ rest.getLast? = some btick ∧ btick ∉ rest.dropLast
      then some rest.dropLast else none
    else if c = '"' then
      if rest ≠ [] ∧ rest.getLast? = some '"'
      then some (decodeStr rest.dropLast) else none
    else none

/-- modifytags quote: wrap the rendered tag set in backquotes. -/
def quote (tag : Str) : Str := btick :: tag ++ [btick]

/-- Steps 1–2 of Modification.processField: unquote the raw literal (an
empty literal stands for no tag) and parse it into a tag set. -/
def litTags (tagVal : Str) : Option (List Tag) :=
  match (if tagVal = [] then some [] else goUnquoteLit tagVal) with
  | none => none
  | some tag => goParse tag

/-- Modification.processField up to the final tag set, before
serialization. -/
def pfTags (mod : Modification) (fieldName : Str) (tagVal : Str) : Option (List Tag) :=
  match litTags tagVal with
  | none => none
  | some tags =>
    let tags1 := removeTags mod tags
    let tags2 := removeTagOptions mod tags1
    let tags3 := clearTags mod tags2
    let tags4 := clearOptions mod tags3
    match addTags mod fieldName tags4 with
    | none => none
    | some tags5 =>
      let tags6 := addTagOptions mod tags5
      some (if mod.Sort' then sortTags tags6 else tags6)

/-- Modification.processField: the new raw tag literal for the field
(the empty string when the tag set came out empty). -/
def processField (mod : Modification) (fieldName : Str) (tagVal : Str) : Option Str :=
  (pfTags mod fieldName tagVal).map
    (fun tags => let res := tagsString tags; if res = [] then [] else quote res)

/-! ## The rewrite walk (Modification.rewrite) -/

/-- isPublicName: whether the first character is upper case (false for
the empty name). -/
def isPublicName : Str → Bool
  | [] => false
  | c :: _ => c.isUpper

/-- A RewriteError's payload: the failing field's file, line and column. -/
structure RewriteErr where
  file : Str
  line : Nat
  col : Nat
deriving DecidableEq

/-- One field site of a struct type with the data the rewrite walk
consults: its identifiers (empty for an embedded field), the embedded
type's identifier when the type is a plain identifier, the raw tag
literal, the token position span, and the file/line/column of its
start position. -/
structure GoField where
  names : List Str
  anonIdent : Option Str
  tag : Option Str
  pos : Nat
  endPos : Nat
  file : Str
  line : Nat
  col : Nat
deriving DecidableEq

/-- The in-range test of Modification.rewrite:
`start <= f.End() && f.Pos() <= end`. -/
def inRange (start endP : Nat) (f : GoField) : Bool :=
  decide (start ≤ f.endPos) && decide (f.pos ≤ endP)

/-- The driving field name the rewrite walk derives: the first
identifier that is exported or allowed because skip-unexported is
unset; for an embedded field, the type's identifier when
skip-unexported is unset; empty when the field is skipped. -/
def fieldNameOf (skip : Bool) (f : GoField) : Str :=
  match f.names with
  | [] =>
    match f.anonIdent with
    | none => []
    | some ident => if !skip then ident else []
  | ns => (ns.find? (fun n => !skip || isPublicName n)).getD []

/-- Per-field body of Modification.rewrite: fields out of range or
without a driving name are skipped; otherwise processField runs, a
failure records a RewriteError carrying the field's file, line and
column, and a success installs the new literal — removing the tag
attribute entirely when the new literal is empty. -/
def rewriteField (mod : Modification) (start endP : Nat) (f : GoField) :
    GoField × Option RewriteErr :=
  if !inRange start endP f then (f, none)
  else
    let fieldName := fieldNameOf mod.SkipUnexportedFields f
    if fieldName = [] then (f, none)
    else
      match processField mod fieldName (f.tag.getD []) with
      | none => (f, some { file := f.file, line := f.line, col := f.col })
      | some res =>
        if res = [] then ({ f with tag := none }, none)
        else ({ f with tag := some res }, none)

/-- The rewrite walk over one struct's field list, collecting the
rewritten fields and the recorded errors in order. -/
def rewriteFields (mod : Modification) (start endP : Nat) :
    List GoField → List GoField × List RewriteErr
  | [] => ([], [])
  | f :: rest =>
    let r := rewriteField mod start endP f
    let rs := rewriteFields mod start endP rest
    (r.1 :: rs.1, r.2.toList ++ rs.2)

/-- Modification.rewrite over the struct types the walk visits (each
modeled by its field list): every field list is processed, the errors
are collected in walk order, and the returned error is nil exactly when
the collection stayed empty. -/
def rewrite (mod : Modification) (start endP : Nat) (structs : List (List GoField)) :
    List (List GoField) × Option (List RewriteErr) :=
  let results := structs.map (rewriteFields mod start endP)
  let errs := (results.map (·.2)).flatten
  (results.map (·.1), if errs = [] then none else some errs)

/-! ## CLI configuration, validation and selection resolution (main.go) -/

/-- The CLI configuration fields that validation and the selection
dispatch consult. -/
structure Config where
  file : Str
  line : Str
  offset : Int
  structName : Str
  fieldName : Str
  all : Bool
deriving DecidableEq

/-- main.go config.validate. -/
def validate (cfg : Config) : Option Str :=
  if cfg.file = [] then some ("no file is passed".toList)
  else if cfg.line = [] ∧ cfg.offset = 0 ∧ cfg.structName = [] ∧ cfg.all = false then
    some ("-line, -offset, -struct or -all is not passed".toList)
  else if (cfg.line ≠ [] ∧ cfg.offset ≠ 0) ∨ (cfg.line ≠ [] ∧ cfg.structName ≠ []) ∨
      (cfg.offset ≠ 0 ∧ cfg.structName ≠ []) then
    some ("-line, -offset or -struct cannot be used together. pick one".toList)
  else if cfg.fieldName ≠ [] ∧ cfg.structName = [] then
    some ("-field is requiring -struct".toList)
  else none

/-- The token-file data the resolver consults: the file's position
base, its size in bytes, and the byte offset at which each of its lines
starts. -/
structure TokFile where
  base : Nat
  size : Nat
  lineOffsets : List Nat
deriving DecidableEq

/-- token.File.LineCount. -/
def lineCount (tf : TokFile) : Nat := tf.lineOffsets.length

/-- token.File.LineStart: the position of the start of line `n`; panics
(modeled as `none`) when `n` is outside `[1, lineCount]`. -/
def lineStart (tf : TokFile) (n : Int) : Option Int :=
  if 1 ≤ n ∧ n ≤ (lineCount tf : Int) then
    some ((tf.base : Int) + (tf.lineOffsets.getD (n.toNat - 1) 0 : Nat))
  else none

/-- token.File.Pos: the position of a byte offset inside the file. -/
def filePos (tf : TokFile) (offset : Nat) : Int := (tf.base : Int) + offset

/-- fset.Position(pos).Offset: from a position back to a byte offset. -/
def posOffset (tf : TokFile) (pos : Int) : Int := pos - tf.base

/-- A field of a collected struct type, as field selection sees it: the
identifier list and the position span. -/
structure AstField where
  names : List Str
  pos : Int
  endPos : Int
deriving DecidableEq

/-- A struct type collected by collectStructs: its derived name, its
node's position span, and its fields. -/
structure AstStruct where
  name : Str
  pos : Int
  endPos : Int
  fields : List AstField
deriving DecidableEq

/-- The parsed file as the resolver sees it: its token file and the
struct types collectStructs finds, in some map-iteration order. -/
structure AstFile where
  tok : TokFile
  structs : List AstStruct
deriving DecidableEq

/-- Decimal rendering of a natural number. -/
def natToStr (n : Nat) : Str := Nat.toDigits 10 n

/-- Decimal rendering of an integer. -/
def intToStr (i : Int) : Str :=
  if i < 0 then '-' :: natToStr i.natAbs else natToStr i.toNat

/-- main.go config.lineSelection: parse the -line flag ("n" or "n,m"),
reject a reversed range, bounds-check with the guard
`start < 0 || start > lineCount || end > lineCount` (whose error
message embeds the start bound and the interval [0, lineCount]), and
convert the admitted line numbers to token positions.  LineStart panics
on a line the guard admitted but the token file rejects — notably
line 0. -/
def lineSelection (tf : TokFile) (lineFlag : Str) : GoResult (Int × Int) :=
  let parts := lineFlag.splitOn ','
  match goAtoi (parts.getD 0 []) with
  | none => .err ("invalid syntax".toList)
  | some s0 =>
    match (if parts.length = 2 then goAtoi (parts.getD 1 []) else some s0) with
    | none => .err ("invalid syntax".toList)
    | some e0 =>
      if s0 > e0 then .err ("wrong range. start line cannot be larger than end line".toList)
      else
        let lc : Int := lineCount tf
        if s0 < 0 ∨ s0 > lc ∨ e0 > lc then
          .err ("line selection \"".toList ++ lineFlag ++ "\" is invalid: ".toList ++
            intToStr s0 ++ " is not within [0, ".toList ++ intToStr lc ++ "]".toList)
        else
          match lineStart tf s0 with
          | none => .panicked
          | some startPos =>
            if e0 = lc then .ok (startPos, filePos tf tf.size)
            else
              match lineStart tf (e0 + 1) with
              | none => .panicked
              | some p => .ok (startPos, p - 1)

/-- main.go config.fieldSelection: the last field of the struct whose
identifier list contains the requested name wins. -/
def fieldSelection (st : AstStruct) (structName fieldName : Str) : GoResult (Int × Int) :=
  match (st.fields.filter (fun f => f.names.contains fieldName)).getLast? with
  | none => .err ("struct \"".toList ++ structName ++ "\" doesn't have field name \"".toList
      ++ fieldName ++ "\"".toList)
  | some f => .ok (f.pos, f.endPos)

/-- main.go config.structSelection: the last collected struct whose name
matches wins; then the struct's span, or the field's span when a field
name was also given. -/
def structSelection (file : AstFile) (structName fieldName : Str) : GoResult (Int × Int) :=
  match (file.structs.filter (fun st => st.name == structName)).getLast? with
  | none => .err ("struct name does not exist".toList)
  | some st =>
    if fieldName ≠ [] then fieldSelection st structName fieldName
    else .ok (st.pos, st.endPos)

/-- main.go config.offsetSelection: the first collected struct whose
byte-offset span contains the offset, both boundaries inclusive. -/
def offsetSelection (file : AstFile) (offset : Int) : GoResult (Int × Int) :=
  match file.structs.find? (fun st =>
      decide (posOffset file.tok st.pos ≤ offset) &&
        decide (offset ≤ posOffset file.tok st.endPos)) with
  | none => .err ("offset is not inside a struct".toList)
  | some st => .ok (st.pos, st.endPos)

/-- main.go config.allSelection: start of line 1 through the end of the
file. -/
def allSelection (file : AstFile) : GoResult (Int × Int) :=
  match lineStart file.tok 1 with
  | none => .panicked
  | some p => .ok (p, filePos file.tok file.tok.size)

/-- main.go config.findSelection: dispatch on the populated criterion —
line first, then offset (where zero means "no offset supplied"), then
struct name, then all; an error when none is populated. -/
def findSelection (cfg : Config) (file : AstFile) : GoResult (Int × Int) :=
  if cfg.line ≠ [] then lineSelection file.tok cfg.line
  else if cfg.offset ≠ 0 then offsetSelection file cfg.offset
  else if cfg.structName ≠ [] then structSelection file cfg.structName cfg.fieldName
  else if cfg.all then allSelection file
  else .err ("-line, -offset, -struct or -all is not passed".toList)

/-! ## Specification-side definitions used to state the claims -/

/-- The key and the optional literal override an add entry carries
(split at the entry's first colon). -/
def entrySplit (e : Str) : Str × Option Str :=
  match splitN2 ':' e with
  | [k, lit] => (k, some lit)
  | _ => (e, none)

/-- Per-entry derived names as the amended C5 claim describes them: an
entry's own override when present, otherwise the most recent override
of an earlier entry, otherwise the base name. -/
def effNames (base : Str) : List Str → List (Str × Str)
  | [] => []
  | e :: rest =>
    let p := entrySplit e
    (p.1, p.2.getD base) :: effNames (p.2.getD base) rest

/-- addTags with per-entry names precomputed (the amended C5 reading). -/
def addTagsNamed (ow : Bool) : List (Str × Str) → List Tag → Option (List Tag)
  | [], tags => some tags
  | (k, nm) :: rest, tags =>
    let tag := match tagsGet k tags with
               | none => { key := k, name := nm, options := [] : Tag }
               | some t => if ow then { t with name := nm } else t
    match tagsSet tag tags with
    | none => none
    | some tags' => addTagsNamed ow rest tags'

/-- The base name an add list starts from: the transformed field name
with the value-format template applied. -/
def baseName (mod : Modification) (fieldName : Str) : Str :=
  applyValueFormat mod.ValueFormat (transformName mod.Transform fieldName)

/-- A modification that only adds keys: no removals, no option edits,
no clears, no sort. -/
def addOnly (mod : Modification) : Prop :=
  mod.Remove = [] ∧ mod.RemoveOptions = [] ∧ mod.AddOptions = [] ∧
    mod.Clear = false ∧ mod.ClearOptions = false ∧ mod.Sort' = false

/-- Well-formedness of a produced tag: the key is non-empty and made of
characters the tag grammar accepts in keys, and no backquote occurs in
the key, the name or the options (a backquote inside the rendered set
would make the re-quoted literal unparseable). -/
def wfTag (t : Tag) : Prop :=
  t.key ≠ [] ∧ (∀ c ∈ t.key, keyChar c = true) ∧ btick ∉ t.key ∧
    btick ∉ t.name ∧ ∀ o ∈ t.options, btick ∉ o

/-- Well-formedness of a produced tag set. -/
def wfTags (ts : List Tag) : Prop := ∀ t ∈ ts, wfTag t

instance (t : Tag) : Decidable (wfTag t) := by
  unfold wfTag
  infer_instance

instance (ts : List Tag) : Decidable (wfTags ts) := by
  unfold wfTags
  infer_instance

instance (mod : Modification) : Decidable (addOnly mod) := by
  unfold addOnly
  infer_instance

/-- The error C8 predicts for one field: present exactly when the field
is in range and eligible and processField fails, and carrying the
field's file, line and column. -/
def specFieldErr (mod : Modification) (start endP : Nat) (f : GoField) : Option RewriteErr :=
  if inRange start endP f = true ∧ fieldNameOf mod.SkipUnexportedFields f ≠ [] ∧
      processField mod (fieldNameOf mod.SkipUnexportedFields f) (f.tag.getD []) = none
  then some { file := f.file, line := f.line, col := f.col } else none

/-- Go strings.Contains: whether `pat` occurs as a contiguous
substring. -/
def containsSub (pat : Str) : Str → Bool
  | [] => pat.isEmpty
  | c :: rest => pat.isPrefixOf (c :: rest) || containsSub pat rest

/-- All tags with the given key in the set are equal — what a
replace-all Set pass guarantees for the key it installs. -/
def dupEq (k : Str) (ts : List Tag) : Prop :=
  ∀ a ∈ ts, ∀ b ∈ ts, a.key = k → b.key = k → a = b

/-! ## Concrete sample inputs used by witnesses and counterexamples -/

/-- A modification with every knob off; concrete cases override
individual fields. -/
def mod0 : Modification where
  Add := []
  AddOptions := []
  Remove := []
  RemoveOptions := []
  Overwrite := false
  SkipUnexportedFields := false
  Transform := .snake
  Sort' := false
  ValueFormat := []
  Clear := false
  ClearOptions := false

/-- A concrete field site (an exported field spanning positions 3-7). -/
def sampleField : GoField where
  names := ["Foo".toList]
  anonIdent := none
  tag := none
  pos := 3
  endPos := 7
  file := "f.go".toList
  line := 1
  col := 2

/-- A configuration with no selection populated. -/
def sampleCfg : Config where
  file := "f.go".toList
  line := []
  offset := 0
  structName := []
  fieldName := []
  all := false

/-- A concrete two-line token file: base 1, 10 bytes, lines starting at
offsets 0 and 5. -/
def sampleTok : TokFile where
  base := 1
  size := 10
  lineOffsets := [0, 5]

/-- A concrete parsed file: `sampleTok` and one struct spanning
positions 1-20 (byte offsets 0-19). -/
def sampleFile : AstFile where
  tok := sampleTok
  structs := [{ name := "foo".toList, pos := 1, endPos := 20, fields := [] }]


theorem parseLinesLoop_spec (input : List Str) (ls : List PrintedLine)
    (h : List.Forall₂ classifies input ls) (buf : List Str) :
    parseLinesLoop input buf = some (ls.foldl specStep buf) := by
  induction h generalizing buf with
  | nil => rfl
  | @cons txt p rest ps hc htail ih =>
    cases p with
    | plain s =>
      obtain ⟨hs, hpre⟩ := hc
      simp only [parseLinesLoop, hpre, Bool.false_eq_true, if_false, List.foldl_cons]
      rw [ih]
      subst hs
      rfl
    | directive n =>
      obtain ⟨hpre, hsplit, hn⟩ := hc
      simp only [parseLinesLoop, hpre, if_true, hsplit, List.foldl_cons]
      have hlt : ¬ ((n : Int) < 1) := by exact_mod_cast Nat.not_lt.mpr hn
      simp only [hlt, if_false]
      rw [ih]
      simp [specStep]

/-- C1: for every printed text made of plain lines and `//line` directives
(with positive line numbers), `parseLines` returns exactly the buffer
built by the specification's discipline: plain lines are appended, and a
directive with number `n` pads the buffer with empty lines to length
`n-1` if shorter, truncates it to its first `n-1` entries, and appending
resumes; the result is the buffer after the last input line. -/
theorem parseLines_reconstruction (input : List Str) (ls : List PrintedLine)
    (h : List.Forall₂ classifies input ls) :
    parseLines input = some (specBuild ls) :=
  parseLinesLoop_spec input ls h []

/-- Witness for C1 at a concrete printed text: two buffered lines, a
directive resetting to line 2, then a resumed line. -/
theorem parseLines_reconstruction_witness :
    parseLines ["package a".toList, "drop me".toList, "//line f.go:2".toList, "tail".toList]
      = some ["package a".toList, "tail".toList] := by
  have h := parseLines_reconstruction
    ["package a".toList, "drop me".toList, "//line f.go:2".toList, "tail".toList]
    [.plain ("package a".toList), .plain ("drop me".toList), .directive 2,
      .plain ("tail".toList)]
    (by
      refine .cons ⟨rfl, by decide⟩ (.cons ⟨rfl, by decide⟩ (.cons ?_ (.cons ⟨rfl, by decide⟩ .nil)))
      exact ⟨by decide, by decide, by decide⟩)
  rw [h]
  rfl

/-- C2: the rewrite walk's in-range test holds iff the field's position
span intersects the resolved range `[start, end]` — any overlap
qualifies (in particular a field that starts before the range and ends
inside it), full containment not being required — and a field failing
the test is left untouched by the walk. -/
theorem inRange_iff_overlap (mod : Modification) (start endP : Nat) (f : GoField)
    (hf : f.pos ≤ f.endPos) (hr : start ≤ endP) :
    (inRange start endP f = true ↔
        ∃ p, f.pos ≤ p ∧ p ≤ f.endPos ∧ start ≤ p ∧ p ≤ endP) ∧
      (inRange start endP f = false → rewriteField mod start endP f = (f, none)) := by
  constructor
  · unfold inRange
    simp only [Bool.and_eq_true, decide_eq_true_eq]
    constructor
    · rintro ⟨h1, h2⟩
      exact ⟨max f.pos start, le_max_left _ _, by omega, le_max_right _ _, by omega⟩
    · rintro ⟨p, hp1, hp2, hp3, hp4⟩
      omega
  · intro h
    unfold rewriteField
    rw [h]
    rfl

/-- Witness for C2: `sampleField` spans positions 3–7; against the
range 5–10 it starts before the range and ends inside it, and it is in
range. -/
theorem inRange_iff_overlap_witness :
    inRange 5 10 sampleField = true ∧ sampleField.pos < 5 ∧ sampleField.endPos < 10 :=
  ⟨((inRange_iff_overlap mod0 5 10 sampleField (by decide) (by decide)).1).mpr
      ⟨5, by decide, by decide, by decide, by decide⟩,
    by decide, by decide⟩

/-- C3 counterexample: a configuration populating both the line-range
criterion and the `all` criterion passes validation, although the claim
says any two populated criteria — combinations with `all` included —
are rejected. -/
theorem validate_line_all_accepted :
    validate { sampleCfg with line := "4".toList, all := true } = none := by decide

/-- C3 amended: with a file supplied, validation succeeds iff at least
one criterion is populated, no two of line-range, byte-offset and
struct-name are populated together, and a field name only comes with a
struct name; the `all` variant combined with one other criterion is
accepted (the other takes precedence at dispatch). -/
theorem validate_characterization (cfg : Config) (hf : cfg.file ≠ []) :
    validate cfg = none ↔
      ((cfg.line ≠ [] ∨ cfg.offset ≠ 0 ∨ cfg.structName ≠ [] ∨ cfg.all = true) ∧
        ¬(cfg.line ≠ [] ∧ cfg.offset ≠ 0) ∧ ¬(cfg.line ≠ [] ∧ cfg.structName ≠ []) ∧
        ¬(cfg.offset ≠ 0 ∧ cfg.structName ≠ []) ∧
        (cfg.fieldName ≠ [] → cfg.structName ≠ [])) := by
  unfold validate
  split_ifs with h1 h2 h3 h4 <;> simp_all <;> tauto

/-- Witness for C3 amended: a struct-name-only configuration validates. -/
theorem validate_characterization_witness :
    validate { sampleCfg with structName := "foo".toList } = none :=
  (validate_characterization _ (by decide)).mpr (by decide)

/-- C4: on `sampleTok`, the valid range 1–2 resolves to token
positions; an end line beyond the file is rejected with the descriptive
error; but the line selection "0" passes the resolver's own guard
`start < 0 || start > lineCount || end > lineCount` (whose message
declares `[0, lineCount]` valid) and then panics inside `LineStart(0)`
instead of failing with the promised error. -/
theorem lineSelection_zero_panics :
    lineSelection sampleTok ("0".toList) = .panicked ∧
      lineSelection sampleTok ("1,2".toList) = .ok (1, 11) ∧
      (lineSelection sampleTok ("1,3".toList)).isErr = true := by decide

/-- C10: an offset of exactly 0 is treated by the dispatch as "no
offset criterion supplied": with no other criterion populated, both
validation and the selection dispatch return the missing-selection
configuration error, even when some collected struct's byte span
contains offset 0 — no struct is ever selected by offset 0. -/
theorem offset_zero_never_selects (cfg : Config) (file : AstFile)
    (hoff : cfg.offset = 0) (hline : cfg.line = []) (hstruct : cfg.structName = [])
    (hall : cfg.all = false) (hfile : cfg.file ≠ [])
    (_hspan : ∃ st ∈ file.structs,
      posOffset file.tok st.pos ≤ 0 ∧ 0 ≤ posOffset file.tok st.endPos) :
    validate cfg = some ("-line, -offset, -struct or -all is not passed".toList) ∧
      findSelection cfg file = .err ("-line, -offset, -struct or -all is not passed".toList) := by
  constructor
  · unfold validate
    simp [hoff, hline, hstruct, hall, hfile]
  · unfold findSelection
    simp [hoff, hline, hstruct, hall]

/-- Witness for C10: `sampleFile`'s sole struct spans byte offsets 0–19
(containing offset 0), and the configuration whose only selection is
offset 0 still gets the missing-selection error. -/
theorem offset_zero_never_selects_witness :
    findSelection sampleCfg sampleFile =
      .err ("-line, -offset, -struct or -all is not passed".toList) :=
  (offset_zero_never_selects sampleCfg sampleFile rfl rfl rfl rfl (by decide)
    ⟨_, List.mem_singleton.mpr rfl, by decide, by decide⟩).2

theorem tagsDelete_keys_self (ts : List Tag) : tagsDelete (tagsKeys ts) ts = [] := by
  unfold tagsDelete
  rw [List.filter_eq_nil_iff]
  intro t ht
  have hmem : t.key ∈ tagsKeys ts := List.mem_map_of_mem _ ht
  simp [hmem]

/-- C7: when the modification clears and adds nothing, the engine
yields the empty tag set on every in-range eligible field whose
literal parses, and the rewrite then removes the field's tag attribute
entirely (rather than leaving an empty literal). -/
theorem clear_removes_tag (mod : Modification) (start endP : Nat) (f : GoField)
    (ts : List Tag)
    (hc : mod.Clear = true) (ha : mod.Add = []) (hao : mod.AddOptions = [])
    (hin : inRange start endP f = true)
    (hel : fieldNameOf mod.SkipUnexportedFields f ≠ [])
    (hp : litTags (f.tag.getD []) = some ts) :
    (rewriteField mod start endP f).1.tag = none ∧
      processField mod (fieldNameOf mod.SkipUnexportedFields f) (f.tag.getD []) = some [] := by
  have hpf : processField mod (fieldNameOf mod.SkipUnexportedFields f) (f.tag.getD [])
      = some [] := by
    unfold processField pfTags
    rw [hp]
    simp only [clearTags, hc, Bool.not_true, Bool.false_eq_true, if_false,
      tagsDelete_keys_self]
    simp only [clearOptions, addTags, ha, if_true, List.map_nil, addTagOptions, hao,
      if_pos rfl]
    cases mod.Sort' <;> simp [sortTags, tagsString, joinStrs]
  refine ⟨?_, hpf⟩
  unfold rewriteField
  rw [hin]
  simp only [Bool.not_true, Bool.false_eq_true, if_false]
  rw [if_neg hel, hpf]
  rfl


/-- Witness for C7: a clear-only modification on `sampleField` carrying
the literal `` `json:"a"` `` leaves the field with no tag attribute. -/
theorem clear_removes_tag_witness :
    (rewriteField { mod0 with Clear := true } 1 10
        { sampleField with tag := some (quote ("json:".toList ++ ['"', 'a', '"'])) }).1.tag
      = none :=
  (clear_removes_tag { mod0 with Clear := true } 1 10
    { sampleField with tag := some (quote ("json:".toList ++ ['"', 'a', '"'])) }
    [{ key := "json".toList, name := ['a'], options := [] }]
    rfl rfl rfl (by decide) (by decide) (by decide)).1

theorem rewriteField_snd_eq_spec (mod : Modification) (start endP : Nat) (f : GoField) :
    (rewriteField mod start endP f).2 = specFieldErr mod start endP f := by
  unfold rewriteField specFieldErr
  by_cases hin : inRange start endP f = true
  · rw [hin]
    simp only [Bool.not_true, Bool.false_eq_true, if_false]
    by_cases hel : fieldNameOf mod.SkipUnexportedFields f = []
    · rw [if_pos hel]
      rw [if_neg (by simp [hel])]
    · rw [if_neg hel]
      cases hproc : processField mod (fieldNameOf mod.SkipUnexportedFields f) (f.tag.getD [])
        with
      | none => simp [hin, hel, hproc]
      | some res =>
        by_cases hres : res = [] <;> simp [hres, hin, hel, hproc]
  · simp only [Bool.not_eq_true] at hin
    rw [hin]
    simp [hin]

theorem rewriteFields_fst (mod : Modification) (start endP : Nat) (fs : List GoField) :
    (rewriteFields mod start endP fs).1 = fs.map (fun f => (rewriteField mod start endP f).1) := by
  induction fs with
  | nil => rfl
  | cons f rest ih => simp [rewriteFields, ih]

theorem rewriteFields_snd (mod : Modification) (start endP : Nat) (fs : List GoField) :
    (rewriteFields mod start endP fs).2 = fs.filterMap (specFieldErr mod start endP) := by
  induction fs with
  | nil => rfl
  | cons f rest ih =>
    simp only [rewriteFields, List.filterMap_cons]
    rw [← rewriteField_snd_eq_spec mod start endP f]
    cases (rewriteField mod start endP f).2 <;> simp [ih]

/-- C8: the rewrite walk processes every field independently — the
output tree is the field-by-field map, so a failing field never blocks
the rest — the aggregated errors are exactly the per-field errors of
the in-range eligible fields whose engine run failed, each carrying
that field's file, line and column, in walk order, and the walk
returns no error exactly when that aggregate is empty. -/
theorem rewrite_partial_failure (mod : Modification) (start endP : Nat)
    (structs : List (List GoField)) :
    (rewrite mod start endP structs).1 =
        structs.map (fun fs => fs.map (fun f => (rewriteField mod start endP f).1)) ∧
      (rewrite mod start endP structs).2 =
        (if (structs.map (fun fs => fs.filterMap (specFieldErr mod start endP))).flatten = []
          then none
          else some (structs.map (fun fs => fs.filterMap (specFieldErr mod start endP))).flatten) ∧
      ((rewrite mod start endP structs).2 = none ↔
        (structs.map (fun fs => fs.filterMap (specFieldErr mod start endP))).flatten = []) := by
  have h1 : (structs.map (rewriteFields mod start endP)).map (·.1) =
      structs.map (fun fs => fs.map (fun f => (rewriteField mod start endP f).1)) := by
    rw [List.map_map]
    exact List.map_congr_left (fun fs _ => rewriteFields_fst mod start endP fs)
  have h2 : (structs.map (rewriteFields mod start endP)).map (·.2) =
      structs.map (fun fs => fs.filterMap (specFieldErr mod start endP)) := by
    rw [List.map_map]
    exact List.map_congr_left (fun fs _ => rewriteFields_snd mod start endP fs)
  unfold rewrite
  refine ⟨by simpa using h1, by simp only [h2], ?_⟩
  simp only [h2]
  split_ifs with h <;> simp [h]

theorem replaceAllF_of_not_contains (pat rep : Str) (fuel : Nat) (s : Str)
    (h : containsSub pat s = false) : replaceAllF pat rep fuel s = s := by
  induction s generalizing fuel with
  | nil => cases fuel <;> rfl
  | cons c rest ih =>
    simp only [containsSub, Bool.or_eq_false_iff] at h
    cases fuel with
    | zero => rfl
    | succ fuel =>
      simp only [replaceAllF]
      rw [if_neg (by simp [h.1]), ih fuel h.2]

theorem replaceAll_of_not_contains (pat rep : Str) (s : Str)
    (h : containsSub pat s = false) : replaceAll pat rep s = s :=
  replaceAllF_of_not_contains pat rep s.length s h

/-- C6 amended: when a value-format template is configured, the
computed name is substituted for every occurrence of the "{field}"
placeholder, not only the first; when that substitution leaves the
template unchanged — in particular whenever the template contains no
"{field}" — every occurrence of the legacy "$field" placeholder is
substituted instead; and a template containing neither placeholder
becomes the name verbatim, with no error raised. -/
theorem applyValueFormat_characterization (vf nm : Str) (hvf : vf ≠ []) :
    (containsSub fieldPat vf = false →
        applyValueFormat vf nm = replaceAll dollarPat nm vf) ∧
      (replaceAll fieldPat nm vf ≠ vf →
        applyValueFormat vf nm = replaceAll fieldPat nm vf) ∧
      (containsSub fieldPat vf = false → containsSub dollarPat vf = false →
        applyValueFormat vf nm = vf) := by
  unfold applyValueFormat
  rw [if_neg hvf]
  refine ⟨?_, ?_, ?_⟩
  · intro h
    rw [if_pos (replaceAll_of_not_contains _ _ _ h)]
  · intro h
    rw [if_neg h]
  · intro h1 h2
    rw [if_pos (replaceAll_of_not_contains _ _ _ h1)]
    exact replaceAll_of_not_contains _ _ _ h2

/-- Witness for C6 amended: a template with only the legacy placeholder
gets it substituted. -/
theorem applyValueFormat_characterization_witness :
    applyValueFormat ("x-$field".toList) ("y".toList) = "x-y".toList :=
  ((applyValueFormat_characterization ("x-$field".toList) ("y".toList) (by decide)).1
    (by decide)).trans (by decide)

/-- C6 counterexample: with the template "{field}_{field}" and computed
name "bar", the substitution replaces every occurrence and yields
"bar_bar" — not the "bar_{field}" that substituting only the first
occurrence (leaving later occurrences as-is) would produce. -/
theorem applyValueFormat_replaces_all :
    applyValueFormat ("{field}_{field}".toList) ("bar".toList) = "bar_bar".toList ∧
      "bar_bar".toList ≠ "bar_".toList ++ fieldPat := ⟨by decide, by decide⟩

/-- C5 counterexample: with add entries ["json:foo", "xml"] on field
"Bar", the entry "xml" — which carries no override — receives the name
"foo" leaked from the previous entry's literal override, not the name
derived from its own entry (CaseTransformer("Bar") = "bar"). -/
theorem addTags_override_leaks :
    addTags { mod0 with Add := ["json:foo".toList, "xml".toList] } ("Bar".toList) [] =
        some [{ key := "json".toList, name := "foo".toList, options := [] },
          { key := "xml".toList, name := "foo".toList, options := [] }] ∧
      transformName .snake ("Bar".toList) = "bar".toList ∧
      "foo".toList ≠ "bar".toList := ⟨by decide, by decide, by decide⟩

theorem addTagsLoop_eq_named (ow : Bool) (entries : List Str) :
    ∀ (name : Str) (ts : List Tag),
      addTagsLoop ow entries name ts = addTagsNamed ow (effNames name entries) ts := by
  induction entries with
  | nil => intro name ts; rfl
  | cons e rest ih =>
    intro name ts
    simp only [addTagsLoop, effNames, entrySplit]
    rcases hsp : splitN2 ':' e with _ | ⟨k, _ | ⟨lit, _ | ⟨x, xs⟩⟩⟩ <;>
      simp only [hsp, addTagsNamed, Option.getD_none, Option.getD_some] <;>
      (cases hset : tagsSet _ ts <;> simp [hset, ih])

theorem addTags_eq_addTagsNamed (mod : Modification) (fieldName : Str) (ts : List Tag) :
    addTags mod fieldName ts =
      addTagsNamed mod.Overwrite (effNames (baseName mod fieldName) mod.Add) ts := by
  unfold addTags baseName
  by_cases h : mod.Add = []
  · simp [h, effNames, addTagsNamed]
  · rw [if_neg h, addTagsLoop_eq_named]

/-- C5 amended: addTags derives the name written for each add entry as:
the entry's own literal override when present, otherwise the most
recent literal override of an earlier entry in the same list (an
override persists into the following iterations), otherwise
CaseTransformer(fieldName) combined with the value-format template. -/
theorem addTags_effective_names (mod : Modification) (fieldName : Str) (ts : List Tag) :
    addTags mod fieldName ts =
      addTagsNamed mod.Overwrite (effNames (baseName mod fieldName) mod.Add) ts :=
  addTags_eq_addTagsNamed mod fieldName ts

theorem takeWhile_append_all (p : Char → Bool) (xs ys : Str) (h : ∀ x ∈ xs, p x = true) :
    (xs ++ ys).takeWhile p = xs ++ ys.takeWhile p := by
  induction xs with
  | nil => simp
  | cons x rest ih =>
    simp only [List.cons_append, List.takeWhile_cons, h x (by simp), if_true]
    rw [ih (fun a ha => h a (by simp [ha]))]

theorem dropWhile_append_all (p : Char → Bool) (xs ys : Str) (h : ∀ x ∈ xs, p x = true) :
    (xs ++ ys).dropWhile p = ys.dropWhile p := by
  induction xs with
  | nil => simp
  | cons x rest ih =>
    simp only [List.cons_append, List.dropWhile_cons, h x (by simp), if_true]
    exact ih (fun a ha => h a (by simp [ha]))

theorem mem_joinStrs {x : Char} {sep : Char} {l : List Str} (h : x ∈ joinStrs sep l) :
    x = sep ∨ ∃ p ∈ l, x ∈ p := by
  induction l with
  | nil => simp [joinStrs] at h
  | cons a rest ih =>
    cases rest with
    | nil =>
      simp only [joinStrs] at h
      exact Or.inr ⟨a, by simp, h⟩
    | cons b rs =>
      simp only [joinStrs, List.mem_append, List.mem_cons] at h
      rcases h with h | h | h
      · exact Or.inr ⟨a, by simp, h⟩
      · exact Or.inl h
      · rcases ih h with h2 | ⟨p, hp, hxp⟩
        · exact Or.inl h2
        · exact Or.inr ⟨p, by simp [hp], hxp⟩

theorem joinStrs_eq_intercalate (sep : Char) (l : List Str) :
    joinStrs sep l = [sep].intercalate l := by
  induction l with
  | nil => rfl
  | cons a rest ih =>
    cases rest with
    | nil => simp [joinStrs, List.intercalate]
    | cons b rs =>
      simp only [joinStrs, List.intercalate] at ih ⊢
      rw [List.intersperse_cons₂, List.flatten_cons, List.flatten_cons, ih]
      simp

theorem decodeStr_encodeStr (v : Str) : decodeStr (encodeStr v) = v := by
  induction v with
  | nil => rfl
  | cons c rest ih =>
    by_cases hc : c = '"' ∨ c = '\\'
    · rcases hc with hc | hc <;> subst hc
      · show _ :: decodeStr (encodeStr rest) = _
        rw [ih]
      · show _ :: decodeStr (encodeStr rest) = _
        rw [ih]
    · push_neg at hc
      simp only [encodeStr, encodeChar, if_neg (show ¬(c = '"' ∨ c = '\\') from by tauto),
        List.cons_append, List.nil_append]
      rw [decodeStr.eq_def]
      simp only [if_neg hc.2]
      rw [ih]

theorem scanQuoted_encodeStr (v rest : Str) :
    scanQuoted (encodeStr v ++ '"' :: rest) = some (encodeStr v, rest) := by
  induction v with
  | nil =>
    show scanQuoted ('"' :: rest) = some ([], rest)
    rw [scanQuoted.eq_def]
    simp
  | cons c tl ih =>
    by_cases hc : c = '"' ∨ c = '\\'
    · rcases hc with hc | hc <;> subst hc
      · show (scanQuoted (encodeStr tl ++ '"' :: rest)).map _ = _
        rw [ih]
        rfl
      · show (scanQuoted (encodeStr tl ++ '"' :: rest)).map _ = _
        rw [ih]
        rfl
    · push_neg at hc
      simp only [encodeStr, encodeChar, if_neg (show ¬(c = '"' ∨ c = '\\') from by tauto),
        List.cons_append, List.nil_append]
      rw [scanQuoted.eq_def]
      simp only [if_neg hc.1, if_neg hc.2]
      rw [ih]
      rfl

theorem keyChar_ne_space {c : Char} (h : keyChar c = true) : (c == ' ') = false := by
  simp only [keyChar, Bool.and_eq_true, decide_eq_true_eq] at h
  have : c ≠ ' ' := by
    intro he
    subst he
    simp at h
  simpa using this

theorem parseTagsF_space (fuel : Nat) (x : Str) :
    parseTagsF fuel (' ' :: x) = parseTagsF fuel x := by
  cases fuel with
  | zero => rfl
  | succ f =>
    simp only [parseTagsF, List.dropWhile_cons]
    norm_num

theorem tagsString_cons₂ (t u : Tag) (rest : List Tag) :
    tagsString (t :: u :: rest) = tagString t ++ ' ' :: tagsString (u :: rest) := rfl

theorem parseTagsF_one (key v tail : Str) (n : Str) (os : List Str) (f : Nat)
    (hknil : key ≠ []) (hkchars : ∀ c ∈ key, keyChar c = true)
    (hsp : v.splitOn ',' = n :: os) :
    parseTagsF (f + 1) (key ++ ':' :: '"' :: (encodeStr v ++ '"' :: tail)) =
      (parseTagsF f tail).map
        (fun ts => { key := key, name := n, options := os } :: ts) := by
  obtain ⟨kc, k', hkey⟩ := List.exists_cons_of_ne_nil hknil
  have hdw : (key ++ ':' :: '"' :: (encodeStr v ++ '"' :: tail)).dropWhile (fun c => c == ' ')
      = key ++ ':' :: '"' :: (encodeStr v ++ '"' :: tail) := by
    rw [hkey]
    simp only [List.cons_append, List.dropWhile_cons,
      keyChar_ne_space (hkchars kc (by rw [hkey]; simp)), Bool.false_eq_true, if_false]
  have htw : (key ++ ':' :: '"' :: (encodeStr v ++ '"' :: tail)).takeWhile keyChar = key := by
    rw [takeWhile_append_all keyChar key _ hkchars]
    simp [List.takeWhile_cons, keyChar]
  have hdw2 : (key ++ ':' :: '"' :: (encodeStr v ++ '"' :: tail)).dropWhile keyChar
      = ':' :: '"' :: (encodeStr v ++ '"' :: tail) := by
    rw [dropWhile_append_all keyChar key _ hkchars]
    simp [List.dropWhile_cons, keyChar]
  simp only [parseTagsF]
  rw [hdw]
  rw [if_neg (by rw [hkey]; simp)]
  rw [htw, hdw2]
  rw [if_neg hknil]
  simp only [scanQuoted_encodeStr, decodeStr_encodeStr, hsp]

theorem tagsString_length (ts : List Tag) : ts.length ≤ (tagsString ts).length := by
  induction ts with
  | nil => simp [tagsString, joinStrs]
  | cons t rest ih =>
    cases rest with
    | nil =>
      simp only [tagsString, joinStrs, tagString, List.map_cons, List.map_nil,
        List.length_append, List.length_cons, List.length_nil]
      omega
    | cons u rs =>
      rw [tagsString_cons₂]
      simp only [List.length_append, List.length_cons] at ih ⊢
      omega

theorem splitOn_ne_nil (v : Str) : v.splitOn ',' ≠ [] := List.splitOnP_ne_nil _ v

theorem parseTagsF_tagsString (ts : List Tag)
    (hk : ∀ t ∈ ts, t.key ≠ [] ∧ ∀ c ∈ t.key, keyChar c = true) :
    ∀ fuel, ts.length < fuel → parseTagsF fuel (tagsString ts) = some (ts.map canonTag) := by
  induction ts with
  | nil =>
    intro fuel hf
    cases fuel with
    | zero => omega
    | succ f => rfl
  | cons t rest ih =>
    intro fuel hf
    obtain ⟨hknil, hkchars⟩ := hk t (by simp)
    cases fuel with
    | zero => omega
    | succ f =>
      obtain ⟨n, os, hsp⟩ := List.exists_cons_of_ne_nil (splitOn_ne_nil (tagValue t))
      have hcanon : canonTag t = { key := t.key, name := n, options := os } := by
        unfold canonTag
        rw [hsp]
      cases rest with
      | nil =>
        have hshape : tagsString [t]
            = t.key ++ ':' :: '"' :: (encodeStr (tagValue t) ++ '"' :: []) := by
          simp [tagsString, joinStrs, tagString, goQuote]
        rw [hshape, parseTagsF_one t.key (tagValue t) [] n os f hknil hkchars hsp]
        have hf0 : parseTagsF f [] = some [] := by
          simp only [List.length_cons, List.length_nil] at hf
          cases f with
          | zero => omega
          | succ f2 => rfl
        rw [hf0]
        simp [hcanon]
      | cons u rs =>
        have hshape : tagsString (t :: u :: rs)
            = t.key ++ ':' :: '"' ::
                (encodeStr (tagValue t) ++ '"' :: (' ' :: tagsString (u :: rs))) := by
          rw [tagsString_cons₂]
          simp [tagString, goQuote]
        rw [hshape, parseTagsF_one t.key (tagValue t) (' ' :: tagsString (u :: rs)) n os f
          hknil hkchars hsp]
        rw [parseTagsF_space]
        rw [ih (fun a ha => hk a (by simp [ha])) f (by simp at hf ⊢; omega)]
        simp [hcanon]

theorem goParse_tagsString (ts : List Tag)
    (hk : ∀ t ∈ ts, t.key ≠ [] ∧ ∀ c ∈ t.key, keyChar c = true) :
    goParse (tagsString ts) = some (ts.map canonTag) := by
  unfold goParse
  have hlen := tagsString_length ts
  exact parseTagsF_tagsString ts hk ((tagsString ts).length + 1) (Nat.lt_succ_of_le hlen)

theorem canonTag_key (t : Tag) : (canonTag t).key = t.key := by
  obtain ⟨n, os, hsp⟩ := List.exists_cons_of_ne_nil (splitOn_ne_nil (tagValue t))
  unfold canonTag
  rw [hsp]

theorem canonTag_value (t : Tag) : tagValue (canonTag t) = tagValue t := by
  obtain ⟨n, os, hsp⟩ := List.exists_cons_of_ne_nil (splitOn_ne_nil (tagValue t))
  unfold canonTag
  rw [hsp]
  show joinStrs ',' (n :: os) = tagValue t
  rw [joinStrs_eq_intercalate, ← hsp, List.intercalate_splitOn]

theorem tagString_canon (t : Tag) : tagString (canonTag t) = tagString t := by
  unfold tagString
  rw [canonTag_key, canonTag_value]

theorem tagsString_map_canon (ts : List Tag) :
    tagsString (ts.map canonTag) = tagsString ts := by
  unfold tagsString
  rw [List.map_map]
  congr 1
  exact List.map_congr_left (fun t _ => tagString_canon t)

theorem mem_encodeStr {x : Char} {v : Str} (h : x ∈ encodeStr v) : x = '\\' ∨ x ∈ v := by
  induction v with
  | nil => simp [encodeStr] at h
  | cons c rest ih =>
    simp only [encodeStr, List.mem_append] at h
    rcases h with h | h
    · unfold encodeChar at h
      split_ifs at h with hc
      · simp only [List.mem_cons, List.not_mem_nil, or_false] at h
        rcases h with h | h
        · exact Or.inl h
        · exact Or.inr (by simp [h])
      · simp only [List.mem_singleton] at h
        exact Or.inr (by simp [h])
    · rcases ih h with h | h
      · exact Or.inl h
      · exact Or.inr (by simp [h])

theorem btick_not_mem_tagValue {t : Tag} (h : wfTag t) : btick ∉ tagValue t := by
  intro hmem
  rcases mem_joinStrs hmem with h1 | ⟨p, hp, hxp⟩
  · exact absurd h1 (by decide)
  · rcases List.mem_cons.mp hp with rfl | hp2
    · exact h.2.2.2.1 hxp
    · exact h.2.2.2.2 p hp2 hxp

theorem btick_not_mem_tagString {t : Tag} (h : wfTag t) : btick ∉ tagString t := by
  intro hmem
  unfold tagString at hmem
  rcases List.mem_append.mp hmem with h1 | h1
  · exact h.2.2.1 h1
  · rcases List.mem_cons.mp h1 with h2 | h2
    · exact absurd h2 (by decide)
    · unfold goQuote at h2
      rcases List.mem_cons.mp h2 with h3 | h3
      · exact absurd h3 (by decide)
      · rcases List.mem_append.mp h3 with h4 | h4
        · rcases mem_encodeStr h4 with h5 | h5
          · exact absurd h5 (by decide)
          · exact btick_not_mem_tagValue h h5
        · exact absurd (List.mem_singleton.mp h4) (by decide)

theorem btick_not_mem_tagsString {ts : List Tag} (h : wfTags ts) :
    btick ∉ tagsString ts := by
  intro hmem
  rcases mem_joinStrs hmem with h1 | ⟨p, hp, hxp⟩
  · exact absurd h1 (by decide)
  · obtain ⟨t, ht, rfl⟩ := List.mem_map.mp hp
    exact btick_not_mem_tagString (h t ht) hxp

theorem goUnquoteLit_quote (s : Str) (hb : btick ∉ s) :
    goUnquoteLit (quote s) = some s := by
  unfold quote goUnquoteLit
  show (if btick = btick then _ else _) = _
  rw [if_pos rfl]
  simp only [List.append_eq]
  rw [if_pos ⟨by simp, by rw [List.getLast?_concat], by rw [List.dropLast_concat]; exact hb⟩]
  rw [List.dropLast_concat]

theorem tagsGet_some {k : Str} {ts : List Tag} {t : Tag} (h : tagsGet k ts = some t) :
    t ∈ ts ∧ t.key = k := by
  unfold tagsGet at h
  refine ⟨List.mem_of_find?_eq_some h, ?_⟩
  have hp := List.find?_some h
  simpa using hp

theorem tagsGet_of_mem_keys {k : Str} {ts : List Tag} (h : k ∈ tagsKeys ts) :
    ∃ t, tagsGet k ts = some t := by
  unfold tagsGet
  obtain ⟨t, ht, rfl⟩ := List.mem_map.mp h
  rcases hf : ts.find? (fun a => a.key == t.key) with _ | t0
  · exfalso
    have := List.find?_eq_none.mp hf t ht
    simp at this
  · exact ⟨t0, hf⟩

theorem tagsKeys_replace (t0 : Tag) (ts : List Tag) :
    tagsKeys (ts.map (fun tg => if tg.key == t0.key then t0 else tg)) = tagsKeys ts := by
  unfold tagsKeys
  rw [List.map_map]
  apply List.map_congr_left
  intro t _
  simp only [Function.comp_apply]
  by_cases hb : (t.key == t0.key) = true
  · rw [if_pos hb]
    exact (eq_of_beq hb).symm
  · rw [if_neg hb]

theorem tagsSet_cases {t0 : Tag} {ts ts' : List Tag} (h : tagsSet t0 ts = some ts') :
    t0.key ≠ [] ∧
      ((ts.any (fun tg => tg.key == t0.key) = true ∧
          ts' = ts.map (fun tg => if tg.key == t0.key then t0 else tg)) ∨
        (ts.any (fun tg => tg.key == t0.key) = false ∧ ts' = ts ++ [t0])) := by
  unfold tagsSet at h
  by_cases h1 : t0.key = []
  · rw [if_pos h1] at h
    cases h
  · rw [if_neg h1] at h
    by_cases h2 : ts.any (fun tg => tg.key == t0.key) = true
    · rw [if_pos h2] at h
      injection h with h
      exact ⟨h1, Or.inl ⟨h2, h.symm⟩⟩
    · rw [if_neg h2] at h
      injection h with h
      exact ⟨h1, Or.inr ⟨by simpa using h2, h.symm⟩⟩

theorem tagsSet_key_mem {t0 : Tag} {ts ts' : List Tag} (h : tagsSet t0 ts = some ts') :
    t0.key ∈ tagsKeys ts' := by
  rcases (tagsSet_cases h).2 with ⟨hany, rfl⟩ | ⟨_, rfl⟩
  · rw [tagsKeys_replace]
    obtain ⟨tg, htg, hbeq⟩ := List.any_eq_true.mp hany
    have := eq_of_beq hbeq
    rw [← this]
    exact List.mem_map_of_mem _ htg
  · unfold tagsKeys
    simp

theorem tagsSet_mem_keys {t0 : Tag} {ts ts' : List Tag} (h : tagsSet t0 ts = some ts')
    {k : Str} (hk : k ∈ tagsKeys ts) : k ∈ tagsKeys ts' := by
  rcases (tagsSet_cases h).2 with ⟨_, rfl⟩ | ⟨_, rfl⟩
  · rw [tagsKeys_replace]
    exact hk
  · unfold tagsKeys at hk ⊢
    simp only [List.map_append, List.mem_append]
    exact Or.inl hk

theorem tagsSet_all_eq {t0 : Tag} {ts ts' : List Tag} (h : tagsSet t0 ts = some ts') :
    ∀ a ∈ ts', a.key = t0.key → a = t0 := by
  intro a ha hak
  rcases (tagsSet_cases h).2 with ⟨_, rfl⟩ | ⟨hnone, rfl⟩
  · obtain ⟨tg, htg, rfl⟩ := List.mem_map.mp ha
    by_cases hb : (tg.key == t0.key) = true
    · rw [if_pos hb]
    · rw [if_neg hb] at hak ⊢
      exact absurd (by simp [hak]) hb
  · rcases List.mem_append.mp ha with ha2 | ha2
    · exfalso
      have := List.any_eq_false.mp hnone a ha2
      simp [hak] at this
    · simpa using ha2

theorem tagsSet_mem_of_key_ne {t0 : Tag} {ts ts' : List Tag} (h : tagsSet t0 ts = some ts')
    {a : Tag} (ha : a ∈ ts') (hne : a.key ≠ t0.key) : a ∈ ts := by
  rcases (tagsSet_cases h).2 with ⟨_, rfl⟩ | ⟨_, rfl⟩
  · obtain ⟨tg, htg, rfl⟩ := List.mem_map.mp ha
    by_cases hb : (tg.key == t0.key) = true
    · rw [if_pos hb] at hne ⊢
      exact absurd rfl hne
    · rw [if_neg hb]
      exact htg
  · rcases List.mem_append.mp ha with ha2 | ha2
    · exact ha2
    · exact absurd (by simp [List.mem_singleton.mp ha2]) hne

theorem tagsSet_establish {t0 : Tag} {ts ts' : List Tag} (h : tagsSet t0 ts = some ts') :
    t0.key ∈ tagsKeys ts' ∧ dupEq t0.key ts' :=
  ⟨tagsSet_key_mem h, fun a ha b hb hak hbk => by
    rw [tagsSet_all_eq h a ha hak, tagsSet_all_eq h b hb hbk]⟩

theorem tagsSet_pres_inv {t0 : Tag} {ts ts' : List Tag} (h : tagsSet t0 ts = some ts')
    {k : Str} (hk : k ∈ tagsKeys ts ∧ dupEq k ts) : k ∈ tagsKeys ts' ∧ dupEq k ts' := by
  by_cases he : t0.key = k
  · subst he
    exact tagsSet_establish h
  · refine ⟨tagsSet_mem_keys h hk.1, ?_⟩
    intro a ha b hb hak hbk
    have ha2 := tagsSet_mem_of_key_ne h ha (by rw [hak]; exact fun hh => he hh.symm)
    have hb2 := tagsSet_mem_of_key_ne h hb (by rw [hbk]; exact fun hh => he hh.symm)
    exact hk.2 a ha2 b hb2 hak hbk

theorem addTagKey (ow : Bool) (k0 nm : Str) (ts : List Tag) :
    (match tagsGet k0 ts with
      | none => ({ key := k0, name := nm, options := [] } : Tag)
      | some t => if ow then { t with name := nm } else t).key = k0 := by
  rcases hget : tagsGet k0 ts with _ | t
  · rfl
  · have hk := (tagsGet_some hget).2
    cases ow <;> simp [hk]

theorem addTagsNamed_pres (ow : Bool) (pairs : List (Str × Str)) :
    ∀ ts ts', addTagsNamed ow pairs ts = some ts' →
      ∀ k, k ∈ tagsKeys ts ∧ dupEq k ts → k ∈ tagsKeys ts' ∧ dupEq k ts' := by
  induction pairs with
  | nil =>
    intro ts ts' h k hk
    rw [← Option.some.inj h]
    exact hk
  | cons pq rest ih =>
    intro ts ts' h k hk
    obtain ⟨k0, nm⟩ := pq
    simp only [addTagsNamed] at h
    split at h
    · cases h
    · rename_i ts2 hset
      exact ih ts2 ts' h k (tagsSet_pres_inv hset hk)

theorem addTagsNamed_inv (ow : Bool) (pairs : List (Str × Str)) :
    ∀ ts ts', addTagsNamed ow pairs ts = some ts' →
      ∀ pr ∈ pairs, pr.1 ∈ tagsKeys ts' ∧ dupEq pr.1 ts' := by
  induction pairs with
  | nil =>
    intro ts ts' _ pr hpr
    simp at hpr
  | cons pq rest ih =>
    intro ts ts' h pr hpr
    obtain ⟨k0, nm⟩ := pq
    simp only [addTagsNamed] at h
    split at h
    · cases h
    · rename_i ts2 hset
      rcases List.mem_cons.mp hpr with hpr1 | hpr2
      · subst hpr1
        have hest := tagsSet_establish hset
        rw [addTagKey ow k0 nm ts] at hest
        exact addTagsNamed_pres ow rest ts2 ts' h k0 hest
      · exact ih ts2 ts' h pr hpr2

theorem addTagsNamed_id (pairs : List (Str × Str)) :
    ∀ ts, (∀ pr ∈ pairs, pr.1 ∈ tagsKeys ts ∧ dupEq pr.1 ts ∧ pr.1 ≠ []) →
      addTagsNamed false pairs ts = some ts := by
  induction pairs with
  | nil => intro ts _; rfl
  | cons pq rest ih =>
    intro ts h
    obtain ⟨k0, nm⟩ := pq
    obtain ⟨hmem, hdup, hne⟩ := h (k0, nm) (by simp)
    obtain ⟨t0, hget⟩ := tagsGet_of_mem_keys hmem
    obtain ⟨ht0mem, ht0key⟩ := tagsGet_some hget
    have hset : tagsSet t0 ts = some ts := by
      unfold tagsSet
      rw [if_neg (by rw [ht0key]; exact hne)]
      rw [if_pos (List.any_eq_true.mpr ⟨t0, ht0mem, by simp⟩)]
      have hid : ∀ tg ∈ ts, (if tg.key == t0.key then t0 else tg) = tg := by
        intro tg htg
        by_cases hb : (tg.key == t0.key) = true
        · rw [if_pos hb]
          exact hdup t0 ht0mem tg htg ht0key (by rw [eq_of_beq hb, ht0key])
        · rw [if_neg hb]
      rw [List.map_congr_left hid]
      simp
    simp only [addTagsNamed, hget, Bool.false_eq_true, if_false, hset]
    exact ih ts (fun pr hpr => h pr (by simp [hpr]))

theorem tagsString_eq_nil_iff (ts : List Tag) : tagsString ts = [] ↔ ts = [] := by
  constructor
  · intro h
    cases ts with
    | nil => rfl
    | cons t rest =>
      exfalso
      cases rest with
      | nil =>
        simp only [tagsString, List.map_cons, List.map_nil, joinStrs, tagString] at h
        simp at h
      | cons u rs =>
        rw [tagsString_cons₂] at h
        simp [tagString] at h
  · intro h
    subst h
    rfl

theorem tagsKeys_map_canon (ts : List Tag) : tagsKeys (ts.map canonTag) = tagsKeys ts := by
  unfold tagsKeys
  rw [List.map_map]
  exact List.map_congr_left (fun t _ => canonTag_key t)

theorem dupEq_map_canon {k : Str} {ts : List Tag} (h : dupEq k ts) :
    dupEq k (ts.map canonTag) := by
  intro a ha b hb hak hbk
  obtain ⟨a', ha', rfl⟩ := List.mem_map.mp ha
  obtain ⟨b', hb', rfl⟩ := List.mem_map.mp hb
  rw [canonTag_key] at hak
  rw [canonTag_key] at hbk
  rw [h a' ha' b' hb' hak hbk]

theorem pfTags_addonly (mod : Modification) (fn lit : Str) (hao : addOnly mod) :
    pfTags mod fn lit =
      match litTags lit with
      | none => none
      | some ts => addTags mod fn ts := by
  obtain ⟨h1, h2, h3, h4, h5, h6⟩ := hao
  unfold pfTags
  cases hl : litTags lit with
  | none => rfl
  | some ts =>
    simp only [removeTags, removeTagOptions, clearTags, clearOptions, addTagOptions,
      h1, h2, h3, h4, h5, h6, Bool.not_false, if_pos rfl, if_true]
    cases hadd : addTags mod fn ts with
    | none => rfl
    | some t5 => simp

/-- C9 amended: an add-key-only modification with the overwrite flag
unset is idempotent at the literal level provided the tag set the first
application produces is well-formed (non-empty grammar-safe keys, no
backquote anywhere — conditions only violated by a backquote or
key-unsafe characters inside an add entry, the transformed field name,
or a double-quoted starting literal): the second application returns
the first application's output unchanged. -/
theorem processField_addonly_idempotent (mod : Modification) (fn lit lit1 : Str)
    (ts1 : List Tag) (hao : addOnly mod) (how : mod.Overwrite = false)
    (hts : pfTags mod fn lit = some ts1) (hwf : wfTags ts1)
    (h1 : processField mod fn lit = some lit1) :
    processField mod fn lit1 = some lit1 := by
  have hlit1 : lit1 = (if tagsString ts1 = [] then [] else quote (tagsString ts1)) := by
    unfold processField at h1
    rw [hts] at h1
    exact (Option.some.inj h1).symm
  have hpipe : ∃ ts0, litTags lit = some ts0 ∧ addTags mod fn ts0 = some ts1 := by
    have hp := pfTags_addonly mod fn lit hao
    rw [hts] at hp
    rcases hlt : litTags lit with _ | ts0
    · rw [hlt] at hp
      simp at hp
    · rw [hlt] at hp
      exact ⟨ts0, rfl, hp.symm⟩
  obtain ⟨ts0, hlt, hadd⟩ := hpipe
  have hinv : ∀ pr ∈ effNames
      (applyValueFormat mod.ValueFormat (transformName mod.Transform fn)) mod.Add,
      pr.1 ∈ tagsKeys ts1 ∧ dupEq pr.1 ts1 := by
    intro pr hpr
    by_cases hAdd : mod.Add = []
    · rw [hAdd] at hpr
      simp [effNames] at hpr
    · have hadd2 := hadd
      unfold addTags at hadd2
      rw [if_neg hAdd, addTagsLoop_eq_named] at hadd2
      exact addTagsNamed_inv mod.Overwrite _ ts0 ts1 hadd2 pr hpr
  by_cases hnil : tagsString ts1 = []
  · -- empty output: the tag set and the add list are empty
    have hts1nil : ts1 = [] := (tagsString_eq_nil_iff ts1).mp hnil
    subst hts1nil
    have hAddNil : mod.Add = [] := by
      rcases hAdd : mod.Add with _ | ⟨e, rest⟩
      · rfl
      · exfalso
        have hmem := (hinv ((entrySplit e).1, ((entrySplit e).2).getD
          (applyValueFormat mod.ValueFormat (transformName mod.Transform fn)))
          (by rw [hAdd]; simp [effNames])).1
        simp [tagsKeys] at hmem
    have hlit1nil : lit1 = [] := by
      rw [hlit1, if_pos hnil]
    subst hlit1nil
    have hpf : pfTags mod fn [] = some [] := by
      rw [pfTags_addonly mod fn [] hao]
      show addTags mod fn [] = some []
      unfold addTags
      rw [if_pos hAddNil]
    unfold processField
    rw [hpf]
    rfl
  · -- non-empty output: parse back and re-add is the identity
    have hlit1q : lit1 = quote (tagsString ts1) := by
      rw [hlit1, if_neg hnil]
    have hbt : btick ∉ tagsString ts1 := btick_not_mem_tagsString hwf
    have hunq : goUnquoteLit lit1 = some (tagsString ts1) := by
      rw [hlit1q]
      exact goUnquoteLit_quote _ hbt
    have hlitTags : litTags lit1 = some (ts1.map canonTag) := by
      unfold litTags
      rw [if_neg (by rw [hlit1q]; simp [quote]), hunq]
      exact goParse_tagsString ts1 (fun t ht => ⟨(hwf t ht).1, (hwf t ht).2.1⟩)
    have haddid : addTags mod fn (ts1.map canonTag) = some (ts1.map canonTag) := by
      unfold addTags
      by_cases hAdd : mod.Add = []
      · rw [if_pos hAdd]
      · rw [if_neg hAdd, addTagsLoop_eq_named, how]
        apply addTagsNamed_id
        intro pr hpr
        have hi := hinv pr hpr
        refine ⟨by rw [tagsKeys_map_canon]; exact hi.1, dupEq_map_canon hi.2, ?_⟩
        obtain ⟨t, ht, hkey⟩ := List.mem_map.mp hi.1
        rw [← hkey]
        exact (hwf t ht).1
    unfold processField
    rw [pfTags_addonly mod fn lit1 hao, hlitTags]
    show (addTags mod fn (ts1.map canonTag)).map _ = some lit1
    rw [haddid]
    show some (if tagsString (ts1.map canonTag) = [] then []
      else quote (tagsString (ts1.map canonTag))) = some lit1
    rw [tagsString_map_canon, if_neg hnil, hlit1q]

/-- C9 counterexample: an add-only modification whose single entry
carries the literal override "a`b" (containing a backquote) succeeds on
a field with no tag, but the produced literal embeds the backquote, so
applying the identical modification to that output fails instead of
returning the same literal: the second application is not the identity
on the first application's output. -/
theorem processField_addonly_not_idempotent :
    processField { mod0 with Add := ["json:a".toList ++ btick :: "b".toList] }
        ("Foo".toList) [] =
        some (quote ("json:".toList ++ '"' :: "a".toList ++ btick :: "b".toList ++ ['"'])) ∧
      processField { mod0 with Add := ["json:a".toList ++ btick :: "b".toList] }
        ("Foo".toList)
        (quote ("json:".toList ++ '"' :: "a".toList ++ btick :: "b".toList ++ ['"'])) =
        none :=
  ⟨by decide, by decide⟩

/-- Witness for C9 amended: adding the key "json" to field "MyField"
with no starting tag produces the literal for `json:"my_field"`, and
re-applying the same modification to that output returns it
unchanged. -/
theorem processField_addonly_idempotent_witness :
    processField { mod0 with Add := ["json".toList] } ("MyField".toList)
        (quote ("json:".toList ++ '"' :: "my_field".toList ++ ['"'])) =
      some (quote ("json:".toList ++ '"' :: "my_field".toList ++ ['"'])) :=
  processField_addonly_idempotent { mod0 with Add := ["json".toList] } ("MyField".toList) []
    (quote ("json:".toList ++ '"' :: "my_field".toList ++ ['"']))
    [{ key := "json".toList, name := "my_field".toList, options := [] }]
    (by decide) (by decide) (by decide) (by decide) (by decide)
